import Mathlib

/-!
Alps / useEigen: a verification development

The three programs under `resource/code/useEigen` are C++ demonstrations over
`double` and `float`.  The development below embeds

* IEEE-754 binary floating point (`binary64` for `double`, `binary32` for
  `float`) with round-to-nearest, ties-to-even, as the semantics of the C++
  operators `+`, `*`, `==` and of the conversions the programs use;
* the default text rendering of a `double` by `std::ostream` (the `%g`
  conversion with precision 6);
* `class Vec3`, its `operator+`, its `operator<<` and `main` of `3dVector.cpp`;
* the assignments and products of `main` of `eigenMatrix.cpp`.

A NaN is one abstract value: its sign and payload are left unspecified by
IEEE-754 and by C++, so nothing below depends on them.  Equality `=` of two
data is identity of the encodings (up to the payload of a NaN); the C++
comparison `==` is `IEEE.feq`, false on a NaN and true on `+0.0` and `-0.0`.
-/

namespace Alps

/-! ## IEEE-754 binary formats -/

/-- A binary interchange format: `prec` significand bits (hidden bit
included), least subnormal `2 ^ (-scale)`, and largest exponent index `kmax`
(the biased exponent field minus one). -/
structure Fmt where
  prec : Nat
  scale : Nat
  kmax : Nat
deriving DecidableEq, Repr

/-- The format of C++ `double`. -/
def binary64 : Fmt := ⟨53, 1074, 2045⟩

/-- The format of C++ `float`. -/
def binary32 : Fmt := ⟨24, 149, 253⟩

/-- A floating-point datum of format `f`.  `fin neg m k` is the real number
`(-1)^neg * m * 2^k * 2^(-f.scale)`; for a normal number `m` has exactly
`f.prec` bits and `k + 1` is the biased exponent field, for a subnormal number
or a zero `k = 0` and `m` is the fraction field. -/
inductive IEEE (f : Fmt) where
  | nan : IEEE f
  | inf (neg : Bool) : IEEE f
  | fin (neg : Bool) (m k : Nat) : IEEE f
deriving DecidableEq, Repr

/-- The type `double`. -/
abbrev Double := IEEE binary64

/-- The type `float`. -/
abbrev Float32 := IEEE binary32

/-- Number of binary digits of `n`: `64` of them are dropped at a time while
`2 ^ 64 ≤ n`, then one at a time (`fuel` bounds the number of steps). -/
def bitlenAux : Nat → Nat → Nat
  | 0, _ => 0
  | fuel + 1, n =>
    if n = 0 then 0
    else if 2 ^ 64 ≤ n then bitlenAux fuel (n / 2 ^ 64) + 64
    else bitlenAux fuel (n / 2) + 1

/-- Number of binary digits of `n` (`0` for `n = 0`). -/
def bitlen (n : Nat) : Nat := bitlenAux n n

namespace IEEE

variable {f : Fmt}

/-- Round-to-nearest, ties-to-even, of the quotient `q` with remainder `r`
out of `d`. -/
def roundNE (q r d : Nat) : Nat :=
  if d < 2 * r ∨ (2 * r = d ∧ q % 2 = 1) then q + 1 else q

/-- The datum of format `f` nearest to `(-1)^neg * n * 2^(-(s + f.scale))`,
ties to even, overflowing to an infinity. -/
def round (f : Fmt) (neg : Bool) (n s : Nat) : IEEE f :=
  let k := bitlen n - f.prec - s
  let sh := k + s
  let q := roundNE (n / 2 ^ sh) (n % 2 ^ sh) (2 ^ sh)
  let m := if q = 2 ^ f.prec then 2 ^ (f.prec - 1) else q
  let k := if q = 2 ^ f.prec then k + 1 else k
  if f.kmax < k then inf neg else fin neg m k

/-- Positive zero. -/
def zero : IEEE f := fin false 0 0

/-- Addition of IEEE-754 (C++ `x + y`), round-to-nearest-even. -/
def add : IEEE f → IEEE f → IEEE f
  | nan, _ => nan
  | _, nan => nan
  | inf s, inf t => if s = t then inf s else nan
  | inf s, fin _ _ _ => inf s
  | fin _ _ _, inf t => inf t
  | fin s m k, fin t n l =>
    let a := m * 2 ^ k
    let b := n * 2 ^ l
    if s = t then round f s (a + b) 0
    else if a = b then zero
    else if b < a then round f s (a - b) 0
    else round f t (b - a) 0

/-- Multiplication of IEEE-754 (C++ `x * y`), round-to-nearest-even. -/
def mul : IEEE f → IEEE f → IEEE f
  | nan, _ => nan
  | _, nan => nan
  | inf s, inf t => inf (s != t)
  | inf s, fin t n _ => if n = 0 then nan else inf (s != t)
  | fin s m _, inf t => if m = 0 then nan else inf (s != t)
  | fin s m k, fin t n l => round f (s != t) (m * n * 2 ^ (k + l)) f.scale

/-- Unary minus. -/
def neg : IEEE f → IEEE f
  | nan => nan
  | inf s => inf (!s)
  | fin s m k => fin (!s) m k

/-- The comparison `x == y` of C++: false as soon as an operand is a NaN,
true on two zeros of either sign. -/
def feq : IEEE f → IEEE f → Bool
  | inf s, inf t => s == t
  | fin s m k, fin t n l => m * 2 ^ k == n * 2 ^ l && (s == t || m == 0)
  | _, _ => false

/-- The test `std::isnan(x)`. -/
def isNaN : IEEE f → Bool
  | nan => true
  | _ => false

/-- Conversion of an integer (an `int` literal or value) to format `f`. -/
def ofInt (f : Fmt) (i : Int) : IEEE f :=
  round f (decide (i < 0)) (i.natAbs * 2 ^ f.scale) 0

/-- The floating literal of value `n / 2 ^ s`. -/
def ofDyadic (f : Fmt) (n s : Nat) : IEEE f :=
  round f false (n * 2 ^ f.scale) s

/-- Conversion between formats (`static_cast`, Eigen `cast<>()`). -/
def cast (g : Fmt) : IEEE f → IEEE g
  | nan => nan
  | inf s => inf s
  | fin s m k => round g s (m * 2 ^ (k + g.scale)) f.scale

/-- The exact value of a finite datum. -/
def toRat : IEEE f → Option ℚ
  | fin s m k => some ((if s then -1 else 1) * (m * 2 ^ k : ℚ) / 2 ^ f.scale)
  | _ => none

/-- The data that are encodings of format `f`: a finite one has a significand
of at most `f.prec` bits, an exponent index up to `f.kmax`, and is normalised
unless its exponent index is `0`. -/
def Valid : IEEE f → Prop
  | fin _ m k => m < 2 ^ f.prec ∧ k ≤ f.kmax ∧ (k = 0 ∨ 2 ^ (f.prec - 1) ≤ m)
  | _ => True

instance (x : IEEE f) : Decidable x.Valid := by
  cases x <;> unfold Valid <;> infer_instance

instance : Add (IEEE f) := ⟨add⟩
instance : Mul (IEEE f) := ⟨mul⟩
instance : Neg (IEEE f) := ⟨neg⟩

end IEEE

/-- Decoding of the 64-bit pattern of a `double`. -/
def Double.ofBits (b : Nat) : Double :=
  let s := decide (b / 2 ^ 63 % 2 = 1)
  let e := b / 2 ^ 52 % 2048
  let fr := b % 2 ^ 52
  if e = 2047 then (if fr = 0 then .inf s else .nan)
  else if e = 0 then .fin s fr 0
  else .fin s (2 ^ 52 + fr) (e - 1)

/-! ## Default text rendering of a `double` by a `std::ostream` -/

/-- Number of decimal digits of `n`. -/
def ndigits (n : Nat) : Nat := (Nat.toDigits 10 n).length

/-- The least `j` from the given one on with `den ≤ num * 10 ^ j`. -/
def negExpAux (num den : Nat) : Nat → Nat → Nat
  | 0, j => j
  | fuel + 1, j => if den ≤ num * 10 ^ j then j else negExpAux num den fuel (j + 1)

/-- The decimal exponent of `num / den > 0`: the `X` with
`10 ^ X ≤ num / den < 10 ^ (X + 1)`. -/
def decExp (num den : Nat) : Int :=
  if den ≤ num then (ndigits (num / den) : Int) - 1
  else - (negExpAux num den den 1 : Int)

/-- The integer nearest to `num / den * 10 ^ (P - 1 - X)`, ties to even:
the first `P` significant digits when `X` is the decimal exponent. -/
def sigDigits (P num den : Nat) (X : Int) : Nat :=
  let t : Int := (P : Int) - 1 - X
  let n := num * 10 ^ t.toNat
  let d := den * 10 ^ (-t).toNat
  IEEE.roundNE (n / d) (n % d) d

/-- Removal of trailing zeros. -/
def stripZeros (l : List Char) : List Char :=
  (l.reverse.dropWhile (fun c => c == '0')).reverse

/-- The fractional part of a `%g` conversion: trailing zeros are removed, and
the decimal point too when nothing follows it. -/
def fracPart (l : List Char) : List Char :=
  if stripZeros l = [] then [] else '.' :: stripZeros l

/-- Exponent digits of the `e` style: at least two. -/
def expDigits (n : Nat) : List Char :=
  if n < 10 then '0' :: Nat.toDigits 10 n else Nat.toDigits 10 n

/-- Layout of the significant digits `ds` of a `%g` conversion with precision
`P` whose decimal exponent is `X`: style `f` when `-4 ≤ X < P` and style `e`
otherwise, trailing zeros removed. -/
def layoutG (P : Nat) (X : Int) (ds : List Char) : List Char :=
  if -4 ≤ X ∧ X < P then
    if 0 ≤ X then ds.take (X.toNat + 1) ++ fracPart (ds.drop (X.toNat + 1))
    else '0' :: fracPart (List.replicate ((-X).toNat - 1) '0' ++ ds)
  else
    ds.take 1 ++ fracPart (ds.drop 1) ++
      'e' :: (if X < 0 then '-' else '+') :: expDigits X.natAbs

/-- The `%g` conversion with precision `P` of the positive rational
`num / den` (of `0` when `num = 0`), as C specifies it: the value is rounded to
`P` significant digits (to `1` when `P = 0`) and laid out by the decimal
exponent it has after rounding. -/
def renderG (P num den : Nat) : List Char :=
  let P := if P = 0 then 1 else P
  if num = 0 then ['0'] else
  let X0 := decExp num den
  let D0 := sigDigits P num den X0
  if D0 = 10 ^ P then layoutG P (X0 + 1) (Nat.toDigits 10 (10 ^ (P - 1)))
  else layoutG P X0 (Nat.toDigits 10 D0)

/-- The text `os << d` writes for a `double` on a stream in its default
state (`precision() == 6`, no `floatfield` flag, no width, "C" locale): the
`%g` conversion.  A NaN is written `nan`; the sign a C library may put before
it is not part of the model. -/
def decimal : Double → String
  | .nan => "nan"
  | .inf s => (if s then "-" else "") ++ "inf"
  | .fin s m k =>
    (if s then "-" else "") ++ String.mk (renderG 6 (m * 2 ^ k) (2 ^ binary64.scale))

/-- A `std::ostream` in its default formatting state: the characters written
to it so far. -/
structure OStream where
  buf : String
deriving DecidableEq, Repr

namespace OStream

/-- The insertion `os << s` of a string literal. -/
def putStr (os : OStream) (s : String) : OStream := ⟨os.buf ++ s⟩

/-- The insertion `os << d` of a `double`. -/
def putDouble (os : OStream) (d : Double) : OStream := ⟨os.buf ++ decimal d⟩

/-- The manipulator `os << std::endl`. -/
def endl (os : OStream) : OStream := ⟨os.buf ++ "\n"⟩

end OStream

/-! ## `3dVector.cpp` -/

/-- The class `Vec3`: three coordinates `x`, `y`, `z`.  The source has
`R = double`; the scalar type is a parameter so that the same `operator+` can
also be read over exact arithmetic. -/
structure Vec3 (R : Type) where
  x : R
  y : R
  z : R
deriving DecidableEq, Repr

namespace Vec3

/-- The member `Vec3 operator+(const Vec3& other) const`. -/
def add {R : Type} [Add R] (self other : Vec3 R) : Vec3 R :=
  ⟨self.x + other.x, self.y + other.y, self.z + other.z⟩

/-- The friend `std::ostream& operator<<(std::ostream& os, const Vec3& v)`. -/
def shl (os : OStream) (v : Vec3 Double) : OStream :=
  os |>.putStr "(" |>.putDouble v.x |>.putStr "," |>.putDouble v.y |>.putStr ","
    |>.putDouble v.z |>.putStr ")"

/-- The text `operator<<` produces for `v` (`Format(v)` of the specification):
what it appends to an empty stream. -/
def format (v : Vec3 Double) : String := (shl ⟨""⟩ v).buf

/-- Component-wise `==` of two vectors, each coordinate compared with the
`==` of `double`.  The source declares no `operator==` for `Vec3`; this is the
comparison the testable properties of the specification are written with. -/
def cmpEq (a b : Vec3 Double) : Bool :=
  a.x.feq b.x && a.y.feq b.y && a.z.feq b.z

/-- Some coordinate is a NaN. -/
def hasNaN (a : Vec3 Double) : Bool :=
  a.x.isNaN || a.y.isNaN || a.z.isNaN

/-- Every coordinate is an encoding of a `double`. -/
def Valid (a : Vec3 Double) : Prop := a.x.Valid ∧ a.y.Valid ∧ a.z.Valid

instance (a : Vec3 Double) : Decidable a.Valid := by
  unfold Valid; infer_instance

end Vec3

/-- A `double` literal of value `n / 2 ^ s` (`1.0` is `lit 1 0`, `2.25` is
`lit 9 2`). -/
def lit (n s : Nat) : Double := IEEE.ofDyadic binary64 n s

namespace Vector3d

/-- The local `Vec3 a(1.0, 2.0, 3.0);` -/
def a : Vec3 Double := ⟨lit 1 0, lit 2 0, lit 3 0⟩

/-- The local `Vec3 b(4.0, 5.0, 6.0);` -/
def b : Vec3 Double := ⟨lit 4 0, lit 5 0, lit 6 0⟩

/-- The local `Vec3 c = a + b;` -/
def c : Vec3 Double := a.add b

/-- The function `main` of `3dVector.cpp`, from the state of `std::cout` to its state on
return and the exit status. -/
def main (cout : OStream) : OStream × Int :=
  ((Vec3.shl cout c).endl, 0)

end Vector3d

/-- No whitespace character occurs in `l`. -/
def NoSpace (l : List Char) : Prop := ∀ c ∈ l, c.isWhitespace = false


/-! ## `eigenMatrix.cpp` -/

/-- The type `Eigen::Matrix<R, r, c>`, by its coefficients `(i, j)`. -/
abbrev Mat (R : Type) (r c : Nat) := Fin r → Fin c → R

/-- The order in which the products of one coefficient of a matrix product
are accumulated, which Eigen leaves to its evaluators: one product after the
other, or by halves (its unrolled reduction).  Every statement on a product
below is proved for both orders. -/
inductive Accum where
  | sequential
  | halves
deriving DecidableEq, Repr

/-- Sum of a list by halves: `sum (first half) + sum (second half)`. -/
def sumHalves {R : Type} [Add R] (z : R) : Nat → List R → R
  | 0, _ => z
  | fuel + 1, l =>
    match l with
    | [] => z
    | [x] => x
    | _ => sumHalves z fuel (l.take (l.length / 2)) + sumHalves z fuel (l.drop (l.length / 2))

/-- Sum of the products of one coefficient, in the order `o`; `z` for no
product at all. -/
def Accum.sum {R : Type} [Add R] (o : Accum) (z : R) : List R → R
  | [] => z
  | x :: xs =>
    match o with
    | .sequential => xs.foldl (fun acc y => acc + y) x
    | .halves => sumHalves z (xs.length + 1) (x :: xs)

namespace Mat

variable {r c n : Nat}

/-- The matrix `Eigen::Matrix<double, r, c>::Zero()`. -/
def Zero : Mat Double r c := fun _ _ => IEEE.zero

/-- The comma initialiser `m << v0, v1, ...;` of integer values: the
coefficients are filled row by row, each converted to the scalar type. -/
def commaInit (f : Fmt) (vals : List Int) : Mat (IEEE f) r c :=
  fun i j => IEEE.ofInt f (vals.getD (i.val * c + j.val) 0)

/-- The conversion `m.cast<NewScalar>()`. -/
def cast {f : Fmt} (g : Fmt) (m : Mat (IEEE f) r c) : Mat (IEEE g) r c :=
  fun i j => (m i j).cast g

/-- The transpose `m.transpose()`. -/
def transpose {R : Type} (m : Mat R r c) : Mat R c r := fun i j => m j i

/-- The product `a * b`: coefficient `(i, j)` is the sum over `k` of
`a(i,k) * b(k,j)`, accumulated in the order `o`. -/
def mul (o : Accum) (a : Mat Double r n) (b : Mat Double n c) : Mat Double r c :=
  fun i j => o.sum IEEE.zero ((List.finRange n).map fun k => a i k * b k j)

/-- The exact values of the coefficients of a matrix of finite data (`0`
stands for a coefficient that is not finite). -/
def exact (m : Mat Double r c) : Matrix (Fin r) (Fin c) ℝ :=
  fun i j => (((m i j).toRat.getD 0 : ℚ) : ℝ)

end Mat

namespace EigenMatrix

/-- The variables of `main` of `eigenMatrix.cpp` that take part in the products
and in the eigen-decomposition, and the argument handed to
`Eigen::SelfAdjointEigenSolver`. -/
structure State where
  matrix_23 : Mat Float32 2 3
  Vd_3d : Mat Double 3 1
  Mf_3d : Mat Float32 3 1
  matrix_33 : Mat Double 3 3
  Matrix_Result : Mat Double 3 3
  Matrix_Result_2d : Mat Double 2 1
  Matrix_Random_1 : Mat Double 3 3
  Matrix_Random_2 : Mat Double 2 1
  solverArg : Mat Double 3 3

/-- Lines 18-35: the declarations.  Only `matrix_33` has an initialiser
(`Eigen::Matrix3d::Zero()`); the other fixed-size matrices start with the
indeterminate contents `s`. -/
def declare (s : State) : State :=
  { s with matrix_33 := Mat.Zero }

/-- Lines 37-67: `matrix_23 << 1, 2, 3, 4, 5, 6;`, `Vd_3d << 3, 2, 1;`,
`Mf_3d << 4, 5, 6;` and the two products. -/
def products (o : Accum) (s : State) : State :=
  let s := { s with matrix_23 := Mat.commaInit binary32 [1, 2, 3, 4, 5, 6] }
  let s := { s with Vd_3d := Mat.commaInit binary64 [3, 2, 1] }
  let s := { s with Mf_3d := Mat.commaInit binary32 [4, 5, 6] }
  let s := { s with Matrix_Result := (s.Mf_3d.cast binary64).mul o s.Vd_3d.transpose }
  { s with Matrix_Result_2d := (s.matrix_23.cast binary64).mul o (s.Mf_3d.cast binary64) }

/-- Lines 69-72: `Matrix_Random_1 = Eigen::Matrix3d::Random();` and
`Matrix_Random_2 = Eigen::Vector2d::Random();`, the random coefficients being
`rnd1` and `rnd2`. -/
def randoms (rnd1 : Mat Double 3 3) (rnd2 : Mat Double 2 1) (s : State) : State :=
  let s := { s with Matrix_Random_1 := rnd1 }
  { s with Matrix_Random_2 := rnd2 }

/-- Line 87: the argument `matrix_33.transpose() * matrix_33` of the
constructor of `eigen_solver`. -/
def solve (o : Accum) (s : State) : State :=
  { s with solverArg := s.matrix_33.transpose.mul o s.matrix_33 }

/-- The function `main` of `eigenMatrix.cpp` up to the construction of `eigen_solver`
(lines 18-87), as a transformation of the variables.  Lines 74-83 only print
values computed from `Matrix_Random_1`. -/
def main (o : Accum) (rnd1 : Mat Double 3 3) (rnd2 : Mat Double 2 1) (s : State) : State :=
  solve o (randoms rnd1 rnd2 (products o (declare s)))

/-- One row of the printing loops: `std::cout << m(i,j) << "\t";` for each `j`,
then `std::cout << "\n" << std::endl;`. -/
def printRow {r c : Nat} (m : Mat Double r c) (os : OStream) (i : Fin r) : OStream :=
  (((List.finRange c).foldl (fun os j => (os.putDouble (m i j)).putStr "\t") os).putStr
    "\n").endl

/-- The printing loops of lines 53-58 and 62-67: every row of `m` in turn. -/
def printLoop {r c : Nat} (m : Mat Double r c) (os : OStream) : OStream :=
  (List.finRange r).foldl (printRow m) os

end EigenMatrix

/-! ## The floating-point model: bit length, rounding, closure -/

theorem bitlenAux_zero (fuel : Nat) : bitlenAux fuel 0 = 0 := by
  cases fuel <;> simp [bitlenAux]

theorem bitlenAux_pos {fuel n : Nat} (h1 : n ≠ 0) (h2 : n < 2 ^ bitlenAux fuel n) :
    0 < bitlenAux fuel n := by
  rcases Nat.eq_zero_or_pos (bitlenAux fuel n) with h | h
  · rw [h] at h2
    omega
  · exact h

theorem bitlenAux_spec (fuel : Nat) : ∀ n, n ≤ fuel →
    n < 2 ^ bitlenAux fuel n ∧ (n ≠ 0 → 2 ^ (bitlenAux fuel n - 1) ≤ n) := by
  induction fuel with
  | zero =>
    intro n hn
    have h0 : n = 0 := by omega
    subst h0
    simp [bitlenAux]
  | succ fuel ih =>
    intro n hn
    by_cases h0 : n = 0
    · subst h0
      simp [bitlenAux]
    · by_cases hbig : 2 ^ 64 ≤ n
      · have hq : n / 2 ^ 64 ≠ 0 := by omega
        have hle : n / 2 ^ 64 ≤ fuel := by omega
        obtain ⟨hlt, hge⟩ := ih (n / 2 ^ 64) hle
        have h1 := hge hq
        have hpos := bitlenAux_pos hq hlt
        have hsplit : 2 ^ (bitlenAux fuel (n / 2 ^ 64) + 64 - 1) =
            2 ^ (bitlenAux fuel (n / 2 ^ 64) - 1) * 2 ^ 64 := by
          rw [← Nat.pow_add]
          congr 1
          omega
        simp only [bitlenAux, if_neg h0, if_pos hbig]
        refine ⟨?_, fun _ => ?_⟩
        · rw [Nat.pow_add]
          omega
        · rw [hsplit]
          omega
      · have hle : n / 2 ≤ fuel := by omega
        obtain ⟨hlt, hge⟩ := ih (n / 2) hle
        simp only [bitlenAux, if_neg h0, if_neg hbig, Nat.add_sub_cancel]
        refine ⟨?_, fun _ => ?_⟩
        · rw [Nat.pow_succ]
          omega
        · by_cases h2 : n / 2 = 0
          · rw [h2, bitlenAux_zero]
            simp
            omega
          · have h1 := hge h2
            have hpos := bitlenAux_pos h2 hlt
            have hsplit : 2 ^ bitlenAux fuel (n / 2) = 2 ^ (bitlenAux fuel (n / 2) - 1) * 2 := by
              rw [← Nat.pow_succ]
              congr 1
              omega
            omega

theorem bitlen_lt (n : Nat) : n < 2 ^ bitlen n :=
  (bitlenAux_spec n n (Nat.le_refl n)).1

theorem bitlen_ge (n : Nat) (h : n ≠ 0) : 2 ^ (bitlen n - 1) ≤ n :=
  (bitlenAux_spec n n (Nat.le_refl n)).2 h

theorem bitlen_le_of_lt {n b : Nat} (h : n < 2 ^ b) : bitlen n ≤ b := by
  by_cases h0 : n = 0
  · subst h0
    simp [bitlen, bitlenAux_zero]
  · have h1 := bitlen_ge n h0
    have h2 : 2 ^ (bitlen n - 1) < 2 ^ b := Nat.lt_of_le_of_lt h1 h
    have h3 := (Nat.pow_lt_pow_iff_right (by decide : 1 < 2)).1 h2
    omega

theorem bitlen_eq_of_bounds {n b : Nat} (hlo : 2 ^ b ≤ n) (hhi : n < 2 ^ (b + 1)) :
    bitlen n = b + 1 := by
  have h1 := bitlen_le_of_lt hhi
  have h2 : 2 ^ b < 2 ^ bitlen n := Nat.lt_of_le_of_lt hlo (bitlen_lt n)
  have h3 := (Nat.pow_lt_pow_iff_right (by decide : 1 < 2)).1 h2
  omega

namespace IEEE

variable {f : Fmt}

theorem roundNE_exact (q d : Nat) (hd : 0 < d) : roundNE q 0 d = q := by
  unfold roundNE
  have h : ¬ (d < 2 * 0 ∨ (2 * 0 = d ∧ q % 2 = 1)) := by omega
  rw [if_neg h]

/-- Rounding leaves an encoding of the format unchanged. -/
theorem round_id (hp : 0 < f.prec) (s : Bool) (m k : Nat)
    (hv : (fin s m k : IEEE f).Valid) : round f s (m * 2 ^ k) 0 = fin s m k := by
  obtain ⟨hm, hk, hn⟩ := hv
  have h2k : 0 < 2 ^ k := Nat.pow_pos (by decide)
  have hK : bitlen (m * 2 ^ k) - f.prec - 0 = k := by
    rcases hn with h0 | hn
    · subst h0
      have := bitlen_le_of_lt hm
      simp
      omega
    · have hlo : 2 ^ (f.prec - 1 + k) ≤ m * 2 ^ k := by
        rw [Nat.pow_add]
        exact Nat.mul_le_mul_right _ hn
      have hhi : m * 2 ^ k < 2 ^ (f.prec - 1 + k + 1) := by
        have e : f.prec - 1 + k + 1 = f.prec + k := by omega
        rw [e, Nat.pow_add]
        exact Nat.mul_lt_mul_of_pos_right hm h2k
      have := bitlen_eq_of_bounds hlo hhi
      omega
  have hq : roundNE (m * 2 ^ k / 2 ^ k) (m * 2 ^ k % 2 ^ k) (2 ^ k) = m := by
    rw [Nat.mul_div_cancel _ h2k, Nat.mul_mod_left]
    exact roundNE_exact m _ h2k
  unfold round
  simp only [hK, Nat.add_zero, hq]
  have hne : m ≠ 2 ^ f.prec := by omega
  have hkk : ¬ f.kmax < k := by omega
  simp [hne, hkk]

theorem roundNE_bounds (q r d : Nat) : q ≤ roundNE q r d ∧ roundNE q r d ≤ q + 1 := by
  unfold roundNE
  split <;> omega

/-- The rounded quotient is within half a unit of the exact one:
`|roundNE (n / d) (n % d) d * d - n| ≤ d / 2`. -/
theorem roundNE_nearest (n d : Nat) (hd : 0 < d) :
    2 * (roundNE (n / d) (n % d) d * d - n) ≤ d ∧
      2 * (n - roundNE (n / d) (n % d) d * d) ≤ d := by
  have h := Nat.div_add_mod n d
  have hr := Nat.mod_lt n hd
  rw [Nat.mul_comm] at h
  unfold roundNE
  split_ifs with hc
  · rw [Nat.add_mul, Nat.one_mul]
    omega
  · omega

/-- Rounding always yields an encoding of the format. -/
theorem round_valid (hp : 0 < f.prec) (s : Bool) (n sc : Nat) : (round f s n sc).Valid := by
  have hlt := bitlen_lt n
  have hsh : bitlen n ≤ f.prec + (bitlen n - f.prec - sc + sc) := by omega
  have hq0 : n / 2 ^ (bitlen n - f.prec - sc + sc) < 2 ^ f.prec := by
    rw [Nat.div_lt_iff_lt_mul (Nat.pow_pos (by decide)), ← Nat.pow_add]
    exact Nat.lt_of_lt_of_le hlt (Nat.pow_le_pow_right (by decide) hsh)
  have hnorm : 0 < bitlen n - f.prec - sc →
      2 ^ (f.prec - 1) ≤ n / 2 ^ (bitlen n - f.prec - sc + sc) := by
    intro hk
    have hn0 : n ≠ 0 := by
      intro h0
      rw [h0] at hk
      simp [bitlen, bitlenAux_zero] at hk
    have hge := bitlen_ge n hn0
    rw [Nat.le_div_iff_mul_le (Nat.pow_pos (by decide)), ← Nat.pow_add]
    have e : f.prec - 1 + (bitlen n - f.prec - sc + sc) = bitlen n - 1 := by omega
    rw [e]
    exact hge
  have hb := roundNE_bounds (n / 2 ^ (bitlen n - f.prec - sc + sc))
    (n % 2 ^ (bitlen n - f.prec - sc + sc)) (2 ^ (bitlen n - f.prec - sc + sc))
  have hpp : 2 ^ (f.prec - 1) < 2 ^ f.prec :=
    Nat.pow_lt_pow_right (by decide) (by omega)
  unfold round
  simp only
  split_ifs with h1 h2 h3
  · trivial
  · exact ⟨hpp, by omega, Or.inr (Nat.le_refl _)⟩
  · trivial
  · refine ⟨by omega, by omega, ?_⟩
    rcases Nat.eq_zero_or_pos (bitlen n - f.prec - sc) with hk | hk
    · exact Or.inl hk
    · exact Or.inr (Nat.le_trans (hnorm hk) hb.1)

/-- A finite result of rounding keeps the sign and lies within half a unit in
its last place of the exact value: with the result `m * 2 ^ k` and the exact
value `n / 2 ^ sc`, `|m * 2 ^ (k + sc) - n| ≤ 2 ^ (k + sc) / 2`. -/
theorem round_half_ulp (hp : 0 < f.prec) (s : Bool) (n sc : Nat) (t : Bool) (m k : Nat)
    (h : round f s n sc = fin t m k) :
    t = s ∧ 2 * (m * 2 ^ (k + sc) - n) ≤ 2 ^ (k + sc) ∧
      2 * (n - m * 2 ^ (k + sc)) ≤ 2 ^ (k + sc) := by
  have hn := roundNE_nearest n (2 ^ (bitlen n - f.prec - sc + sc)) (Nat.pow_pos (by decide))
  unfold round at h
  simp only at h
  split_ifs at h with h1 h2 h3
  · injection h with hs hm hk
    subst hs hm hk
    have e1 : 2 ^ (f.prec - 1) * 2 ^ (bitlen n - f.prec - sc + 1 + sc) =
        2 ^ f.prec * 2 ^ (bitlen n - f.prec - sc + sc) := by
      rw [← Nat.pow_add, ← Nat.pow_add]
      congr 1
      omega
    have e2 : 2 ^ (bitlen n - f.prec - sc + 1 + sc) =
        2 * 2 ^ (bitlen n - f.prec - sc + sc) := by
      rw [← Nat.pow_succ']
      congr 1
      omega
    rw [h1] at hn
    rw [e1, e2]
    refine ⟨rfl, ?_, ?_⟩ <;> omega
  · injection h with hs hm hk
    subst hs hm hk
    exact ⟨rfl, hn.1, hn.2⟩

theorem zero_valid : (zero : IEEE f).Valid :=
  ⟨Nat.pow_pos (by decide), Nat.zero_le _, Or.inl rfl⟩

/-- A sum is always an encoding of the format. -/
theorem add_valid (hp : 0 < f.prec) (x y : IEEE f) : (x.add y).Valid := by
  cases x with
  | nan => cases y <;> trivial
  | inf s =>
    cases y with
    | nan => trivial
    | inf t =>
      simp only [add]
      split <;> trivial
    | fin t n l => trivial
  | fin s m k =>
    cases y with
    | nan => trivial
    | inf t => trivial
    | fin t n l =>
      simp only [add]
      split_ifs
      · exact round_valid hp _ _ _
      · exact zero_valid
      · exact round_valid hp _ _ _
      · exact round_valid hp _ _ _

/-- A product is always an encoding of the format. -/
theorem mul_valid (hp : 0 < f.prec) (x y : IEEE f) : (x.mul y).Valid := by
  cases x with
  | nan => cases y <;> trivial
  | inf s =>
    cases y with
    | nan => trivial
    | inf t => trivial
    | fin t n l =>
      simp only [mul]
      split <;> trivial
  | fin s m k =>
    cases y with
    | nan => trivial
    | inf t =>
      simp only [mul]
      split <;> trivial
    | fin t n l => exact round_valid hp _ _ _

/-- A converted datum is always an encoding of the target format. -/
theorem cast_valid {g : Fmt} (hp : 0 < g.prec) (x : IEEE f) : (x.cast g).Valid := by
  cases x with
  | nan => trivial
  | inf s => trivial
  | fin s m k => exact round_valid hp _ _ _

theorem add_def (x y : IEEE f) : x + y = x.add y := rfl

theorem add_comm (x y : IEEE f) : x.add y = y.add x := by
  cases x with
  | nan => cases y <;> rfl
  | inf s =>
    cases y with
    | nan => rfl
    | inf t =>
      cases s <;> cases t <;> rfl
    | fin t n l => rfl
  | fin s m k =>
    cases y with
    | nan => rfl
    | inf t => rfl
    | fin t n l =>
      simp only [add]
      by_cases hst : s = t
      · subst hst
        simp [Nat.add_comm]
      · have hts : ¬ t = s := fun h => hst h.symm
        simp only [if_neg hst, if_neg hts]
        by_cases hab : m * 2 ^ k = n * 2 ^ l
        · simp [hab]
        · have hba : ¬ n * 2 ^ l = m * 2 ^ k := fun h => hab h.symm
          simp only [if_neg hab, if_neg hba]
          by_cases hlt : n * 2 ^ l < m * 2 ^ k
          · have : ¬ m * 2 ^ k < n * 2 ^ l := by omega
            simp [hlt, this]
          · have : m * 2 ^ k < n * 2 ^ l := by omega
            simp [hlt, this]

/-- The comparison `x == x` is true exactly when `x` is not a NaN. -/
theorem feq_self (x : IEEE f) : x.feq x = !x.isNaN := by
  cases x <;> simp [feq, isNaN]

/-- Adding `+0.0` to an encoding that is not a NaN gives a datum that
compares equal to it. -/
theorem feq_add_zero (hp : 0 < f.prec) (x : IEEE f) (hv : x.Valid) :
    (x.add zero).feq x = !x.isNaN := by
  cases x with
  | nan => rfl
  | inf s => simp [add, zero, feq, isNaN]
  | fin s m k =>
    have hid := round_id hp s m k hv
    cases s with
    | false =>
      simp only [add, zero, if_pos, Nat.zero_mul, Nat.add_zero, hid]
      simp [feq, isNaN]
    | true =>
      by_cases h0 : m * 2 ^ k = 0
      · simp [add, zero, h0, feq, isNaN]
      · have hpos : 0 < m * 2 ^ k := Nat.pos_of_ne_zero h0
        simp [add, zero, h0, hpos, hid, feq, isNaN]

/-- Adding `+0.0` to an encoding other than `-0.0` returns it unchanged;
`-0.0 + 0.0` is `+0.0`. -/
theorem add_zero_eq (hp : 0 < f.prec) (x : IEEE f) (hv : x.Valid) :
    x.add zero = if x = fin true 0 0 then zero else x := by
  cases x with
  | nan => rfl
  | inf s => rfl
  | fin s m k =>
    have hid := round_id hp s m k hv
    cases s with
    | false =>
      simp only [add, zero, if_pos, Nat.zero_mul, Nat.add_zero, hid]
      simp
    | true =>
      by_cases h0 : m * 2 ^ k = 0
      · have hm : m = 0 := by
          rcases Nat.mul_eq_zero.1 h0 with h | h
          · exact h
          · exact absurd h (Nat.pos_iff_ne_zero.1 (Nat.pow_pos (by decide)))
        have hk : k = 0 := by
          rcases hv.2.2 with h | h
          · exact h
          · rw [hm] at h
            exact absurd h (Nat.not_le.2 (Nat.pow_pos (by decide)))
        subst hm
        subst hk
        simp [add, zero]
      · have hpos : 0 < m * 2 ^ k := Nat.pos_of_ne_zero h0
        have hne : ¬ (m = 0 ∧ k = 0) := by
          rintro ⟨rfl, -⟩
          simp at h0
        simp [add, zero, h0, hpos, hid, hne]

end IEEE

/-! ## `Vec3::operator+` -/

/-- C1. For every pair of `Vec3` values `a`, `b`, `operator+` returns the
vector whose coordinates are the pairwise IEEE sums `a.x + b.x`, `a.y + b.y`,
`a.z + b.z`. -/
theorem Vec3.add_coordinates (a b : Vec3 Double) :
    (a.add b).x = IEEE.add a.x b.x ∧ (a.add b).y = IEEE.add a.y b.y ∧
      (a.add b).z = IEEE.add a.z b.z :=
  ⟨rfl, rfl, rfl⟩

/-- The sum of two vectors has coordinates that are encodings of `double`. -/
theorem Vec3.sum_valid (a b : Vec3 Double) : (a.add b).Valid :=
  ⟨IEEE.add_valid (by decide) _ _, IEEE.add_valid (by decide) _ _,
    IEEE.add_valid (by decide) _ _⟩

/-- C2, as stated, fails: with a NaN coordinate the sums in the two orders are
both NaN, and `NaN == NaN` is false. -/
theorem Vec3.add_comm_fails_on_nan :
    Vec3.cmpEq (Vec3.add ⟨IEEE.nan, lit 0 0, lit 0 0⟩ ⟨lit 0 0, lit 0 0, lit 0 0⟩)
      (Vec3.add ⟨lit 0 0, lit 0 0, lit 0 0⟩ ⟨IEEE.nan, lit 0 0, lit 0 0⟩) = false := by
  decide!

/-- C2, amended. For all `Vec3` values `a`, `b`, `a + b` and `b + a` have the
same coordinates (a NaN where the other has a NaN), and the comparison
`a + b == b + a` is true exactly when no coordinate of the sum is a NaN. -/
theorem Vec3.add_comm_up_to_nan (a b : Vec3 Double) :
    a.add b = b.add a ∧ Vec3.cmpEq (a.add b) (b.add a) = !(a.add b).hasNaN := by
  have h : a.add b = b.add a := by
    show Vec3.mk _ _ _ = Vec3.mk _ _ _
    congr 1 <;> exact IEEE.add_comm _ _
  refine ⟨h, ?_⟩
  rw [← h]
  simp only [Vec3.cmpEq, Vec3.hasNaN, IEEE.feq_self]
  cases (a.add b).x.isNaN <;> cases (a.add b).y.isNaN <;> cases (a.add b).z.isNaN <;> rfl

/-- C3, as stated, fails: for `a = (NaN, 0, 0)` the sum `a + (0,0,0)` has a NaN
first coordinate, which does not compare equal to that of `a`. -/
theorem Vec3.add_zero_fails_on_nan :
    Vec3.cmpEq (Vec3.add ⟨IEEE.nan, lit 0 0, lit 0 0⟩ ⟨lit 0 0, lit 0 0, lit 0 0⟩)
      ⟨IEEE.nan, lit 0 0, lit 0 0⟩ = false := by
  decide!

/-- C3, amended. For every `Vec3` value `a` (its coordinates encodings of
`double`), `a + Vec3(0,0,0) == a` holds component by component exactly when no
coordinate of `a` is a NaN. -/
theorem Vec3.add_zero_cmpEq (a : Vec3 Double) (ha : a.Valid) :
    Vec3.cmpEq (a.add ⟨lit 0 0, lit 0 0, lit 0 0⟩) a = !a.hasNaN := by
  have hz : lit 0 0 = (IEEE.zero : Double) := by decide!
  have hp : 0 < binary64.prec := by decide
  obtain ⟨hx, hy, hz'⟩ := ha
  have ex := IEEE.feq_add_zero hp a.x hx
  have ey := IEEE.feq_add_zero hp a.y hy
  have ez := IEEE.feq_add_zero hp a.z hz'
  simp only [Vec3.cmpEq, Vec3.add, IEEE.add_def, hz, ex, ey, ez]
  simp only [Vec3.hasNaN]
  cases a.x.isNaN <;> cases a.y.isNaN <;> cases a.z.isNaN <;> rfl

/-- Witness of `Vec3.add_zero_cmpEq` at `a = (-1.5, -0.0, 2.25)`. -/
theorem Vec3.add_zero_cmpEq_witness :
    (⟨-lit 3 1, -lit 0 0, lit 9 2⟩ : Vec3 Double).Valid ∧
      Vec3.cmpEq (Vec3.add ⟨-lit 3 1, -lit 0 0, lit 9 2⟩ ⟨lit 0 0, lit 0 0, lit 0 0⟩)
        ⟨-lit 3 1, -lit 0 0, lit 9 2⟩ = !(⟨-lit 3 1, -lit 0 0, lit 9 2⟩ : Vec3 Double).hasNaN :=
  ⟨by decide!, Vec3.add_zero_cmpEq _ (by decide!)⟩

/-- C6. If `a` and `a'` agree on `y` and `z`, then `a + b` and `a' + b` have
the same `y` and the same `z`; if `b` and `b'` agree on `y` and `z`, then
`a + b` and `a + b'` have the same `y` and the same `z`. -/
theorem Vec3.add_frame (a a' b b' : Vec3 Double)
    (hay : a.y = a'.y) (haz : a.z = a'.z) (hby : b.y = b'.y) (hbz : b.z = b'.z) :
    ((a.add b).y = (a'.add b).y ∧ (a.add b).z = (a'.add b).z) ∧
      ((a.add b).y = (a.add b').y ∧ (a.add b).z = (a.add b').z) := by
  simp only [Vec3.add, hay, haz, hby, hbz, and_self]

/-- Witness of `Vec3.add_frame`: the `x` coordinates of both operands change,
`y` and `z` do not. -/
theorem Vec3.add_frame_witness :
    ((Vec3.add ⟨lit 1 0, lit 2 0, lit 3 0⟩ ⟨lit 4 0, lit 5 0, lit 6 0⟩ : Vec3 Double).y =
        (Vec3.add ⟨lit 7 0, lit 2 0, lit 3 0⟩ ⟨lit 4 0, lit 5 0, lit 6 0⟩ : Vec3 Double).y ∧
      (Vec3.add ⟨lit 1 0, lit 2 0, lit 3 0⟩ ⟨lit 4 0, lit 5 0, lit 6 0⟩ : Vec3 Double).z =
        (Vec3.add ⟨lit 7 0, lit 2 0, lit 3 0⟩ ⟨lit 4 0, lit 5 0, lit 6 0⟩ : Vec3 Double).z) ∧
    ((Vec3.add ⟨lit 1 0, lit 2 0, lit 3 0⟩ ⟨lit 4 0, lit 5 0, lit 6 0⟩ : Vec3 Double).y =
        (Vec3.add ⟨lit 1 0, lit 2 0, lit 3 0⟩ ⟨lit 9 0, lit 5 0, lit 6 0⟩ : Vec3 Double).y ∧
      (Vec3.add ⟨lit 1 0, lit 2 0, lit 3 0⟩ ⟨lit 4 0, lit 5 0, lit 6 0⟩ : Vec3 Double).z =
        (Vec3.add ⟨lit 1 0, lit 2 0, lit 3 0⟩ ⟨lit 9 0, lit 5 0, lit 6 0⟩ : Vec3 Double).z) :=
  Vec3.add_frame ⟨lit 1 0, lit 2 0, lit 3 0⟩ ⟨lit 7 0, lit 2 0, lit 3 0⟩
    ⟨lit 4 0, lit 5 0, lit 6 0⟩ ⟨lit 9 0, lit 5 0, lit 6 0⟩ rfl rfl rfl rfl

/-- C7. `Vec3(-1.5, 0, 2.25) + Vec3(1.5, -3, 0.75)` is `Vec3(0, -3, 3)`, and
the six operands and three sums have exactly the rational values written: no
rounding takes place. -/
theorem Vec3.add_fractions :
    Vec3.add (⟨-lit 3 1, lit 0 0, lit 9 2⟩ : Vec3 Double) ⟨lit 3 1, -lit 3 0, lit 3 2⟩ =
        ⟨lit 0 0, -lit 3 0, lit 3 0⟩ ∧
      ((-lit 3 1).toRat = some (-3 / 2) ∧ (lit 0 0).toRat = some 0 ∧
        (lit 9 2).toRat = some (9 / 4)) ∧
      ((lit 3 1).toRat = some (3 / 2) ∧ (-lit 3 0).toRat = some (-3) ∧
        (lit 3 2).toRat = some (3 / 4)) ∧
      (IEEE.add (-lit 3 1) (lit 3 1)).toRat = some (-3 / 2 + 3 / 2) ∧
      (IEEE.add (lit 0 0) (-lit 3 0)).toRat = some (0 + -3) ∧
      (IEEE.add (lit 9 2) (lit 3 2)).toRat = some (9 / 4 + 3 / 4) := by
  decide!

/-- C8. Read over exact arithmetic (the rationals, the reals, any type whose
addition is associative), `operator+` is associative:
`(a + b) + c = a + (b + c)` coordinate by coordinate. -/
theorem Vec3.add_assoc_exact {R : Type} [AddSemigroup R] (a b c : Vec3 R) :
    (a.add b).add c = a.add (b.add c) := by
  simp only [Vec3.add, add_assoc]

/-- Over `double` itself the addition is not associative: `(1 + 2^53) - 2^53`
is `0`, the first sum being rounded, and `1 + (2^53 - 2^53)` is `1`. -/
theorem Vec3.add_not_assoc_double :
    IEEE.add (IEEE.add (lit 1 0) (lit (2 ^ 53) 0)) (-lit (2 ^ 53) 0) ≠
      IEEE.add (lit 1 0) (IEEE.add (lit (2 ^ 53) 0) (-lit (2 ^ 53) 0)) := by
  decide!

/-! ## Characters of the rendering -/

theorem NoSpace.of_nil : NoSpace [] := by
  intro c hc
  cases hc

theorem NoSpace.of_cons {c : Char} {l : List Char} (hc : c.isWhitespace = false)
    (hl : NoSpace l) : NoSpace (c :: l) := by
  intro d hd
  rcases List.mem_cons.1 hd with h | h
  · rw [h]; exact hc
  · exact hl d h

theorem NoSpace.of_append {l r : List Char} (hl : NoSpace l) (hr : NoSpace r) :
    NoSpace (l ++ r) := by
  intro d hd
  rcases List.mem_append.1 hd with h | h
  · exact hl d h
  · exact hr d h

theorem NoSpace.of_subset {l r : List Char} (hr : NoSpace r) (h : ∀ c ∈ l, c ∈ r) :
    NoSpace l := fun c hc => hr c (h c hc)

theorem NoSpace.of_take {l : List Char} (n : Nat) (hl : NoSpace l) : NoSpace (l.take n) :=
  hl.of_subset fun _ hc => List.mem_of_mem_take hc

theorem NoSpace.of_drop {l : List Char} (n : Nat) (hl : NoSpace l) : NoSpace (l.drop n) :=
  hl.of_subset fun _ hc => List.mem_of_mem_drop hc

theorem NoSpace.of_stripZeros {l : List Char} (hl : NoSpace l) : NoSpace (stripZeros l) := by
  apply hl.of_subset
  intro c hc
  unfold Alps.stripZeros at hc
  have h1 := List.mem_reverse.1 hc
  have h2 := (List.dropWhile_sublist _).subset h1
  exact List.mem_reverse.1 h2

theorem NoSpace.of_fracPart {l : List Char} (hl : NoSpace l) : NoSpace (fracPart l) := by
  unfold Alps.fracPart
  split
  · exact NoSpace.of_nil
  · exact NoSpace.of_cons (by decide) hl.of_stripZeros

theorem NoSpace.of_replicate (n : Nat) : NoSpace (List.replicate n '0') := by
  intro c hc
  rw [(List.mem_replicate.1 hc).2]
  decide

theorem digitChar_noSpace (n : Nat) : (Nat.digitChar (n % 10)).isWhitespace = false := by
  have h : n % 10 < 10 := Nat.mod_lt _ (by decide)
  generalize n % 10 = k at h
  interval_cases k <;> decide

theorem NoSpace.of_toDigitsCore (fuel : Nat) : ∀ (n : Nat) (ds : List Char), NoSpace ds →
    NoSpace (Nat.toDigitsCore 10 fuel n ds) := by
  induction fuel with
  | zero => intro n ds h; simpa [Nat.toDigitsCore] using h
  | succ fuel ih =>
    intro n ds h
    simp only [Nat.toDigitsCore]
    split
    · exact NoSpace.of_cons (digitChar_noSpace n) h
    · exact ih _ _ (NoSpace.of_cons (digitChar_noSpace n) h)

theorem NoSpace.of_toDigits (n : Nat) : NoSpace (Nat.toDigits 10 n) :=
  NoSpace.of_toDigitsCore _ _ _ NoSpace.of_nil

theorem NoSpace.of_expDigits (n : Nat) : NoSpace (expDigits n) := by
  unfold Alps.expDigits
  split
  · exact NoSpace.of_cons (by decide) (NoSpace.of_toDigits n)
  · exact NoSpace.of_toDigits n

theorem NoSpace.of_layoutG (P : Nat) (X : Int) {ds : List Char} (h : NoSpace ds) :
    NoSpace (layoutG P X ds) := by
  unfold Alps.layoutG
  split_ifs
  · exact (h.of_take _).of_append (h.of_drop _).of_fracPart
  · exact NoSpace.of_cons (by decide) ((NoSpace.of_replicate _).of_append h).of_fracPart
  · exact ((h.of_take _).of_append (h.of_drop _).of_fracPart).of_append
      (NoSpace.of_cons (by decide) (NoSpace.of_cons (by decide) (NoSpace.of_expDigits _)))
  · exact ((h.of_take _).of_append (h.of_drop _).of_fracPart).of_append
      (NoSpace.of_cons (by decide) (NoSpace.of_cons (by decide) (NoSpace.of_expDigits _)))

theorem NoSpace.of_renderG (P num den : Nat) : NoSpace (renderG P num den) := by
  unfold Alps.renderG
  simp only
  split_ifs <;>
    first
    | exact NoSpace.of_cons (by decide) NoSpace.of_nil
    | exact NoSpace.of_layoutG _ _ (NoSpace.of_toDigits _)

theorem NoSpace.of_decimal (d : Double) : NoSpace (decimal d).data := by
  cases d with
  | nan => intro c hc; revert c; decide
  | inf s => cases s <;> (intro c hc; revert c hc; decide)
  | fin s m k =>
    simp only [Alps.decimal, String.data_append]
    refine NoSpace.of_append ?_ (NoSpace.of_renderG _ _ _)
    cases s <;> (intro c hc; revert c hc; decide)


/-- What `operator<<` appends to a stream. -/
theorem Vec3.shl_buf (os : OStream) (v : Vec3 Double) :
    (Vec3.shl os v).buf =
      os.buf ++ ("(" ++ decimal v.x ++ "," ++ decimal v.y ++ "," ++ decimal v.z ++ ")") := by
  simp only [Vec3.shl, OStream.putStr, OStream.putDouble, String.append_assoc]

/-- C4. For every `Vec3` value `v`, `operator<<` appends to the stream exactly
`"(" ++ decimal v.x ++ "," ++ decimal v.y ++ "," ++ decimal v.z ++ ")"`, where
`decimal` is the default rendering of a `double`: the coordinates come in the
order `x`, `y`, `z`, separated by single commas, inside one pair of
parentheses, and no whitespace character occurs in the text. -/
theorem Vec3.shl_text (os : OStream) (v : Vec3 Double) :
    (Vec3.shl os v).buf =
        os.buf ++ ("(" ++ decimal v.x ++ "," ++ decimal v.y ++ "," ++ decimal v.z ++ ")") ∧
      Vec3.format v = "(" ++ decimal v.x ++ "," ++ decimal v.y ++ "," ++ decimal v.z ++ ")" ∧
      (Vec3.format v).data.all (fun c => !c.isWhitespace) = true := by
  have hf : Vec3.format v =
      "(" ++ decimal v.x ++ "," ++ decimal v.y ++ "," ++ decimal v.z ++ ")" := by
    unfold Vec3.format
    rw [Vec3.shl_buf]
    exact String.empty_append _
  refine ⟨Vec3.shl_buf os v, hf, ?_⟩
  rw [hf, List.all_eq_true]
  intro c hc
  have hns : NoSpace
      ("(" ++ decimal v.x ++ "," ++ decimal v.y ++ "," ++ decimal v.z ++ ")").data := by
    simp only [String.data_append]
    have hlit : ∀ t : List Char, t = ['('] ∨ t = [','] ∨ t = [')'] → NoSpace t := by
      intro t ht
      rcases ht with rfl | rfl | rfl <;> (intro c hc; revert c hc; decide)
    exact ((((((hlit _ (Or.inl rfl)).of_append (NoSpace.of_decimal _)).of_append
      (hlit _ (Or.inr (Or.inl rfl)))).of_append (NoSpace.of_decimal _)).of_append
      (hlit _ (Or.inr (Or.inl rfl)))).of_append (NoSpace.of_decimal _)).of_append
      (hlit _ (Or.inr (Or.inr rfl)))
  simp [hns c hc]

/-! ## `main` of `3dVector.cpp` -/

/-- The bit patterns of the `double` literals of `3dVector.cpp` and of the
fractional scenario. -/
theorem lit_bits :
    lit 0 0 = Double.ofBits 0x0000000000000000 ∧ lit 1 0 = Double.ofBits 0x3FF0000000000000 ∧
      lit 2 0 = Double.ofBits 0x4000000000000000 ∧ lit 3 0 = Double.ofBits 0x4008000000000000 ∧
      lit 4 0 = Double.ofBits 0x4010000000000000 ∧ lit 5 0 = Double.ofBits 0x4014000000000000 ∧
      lit 6 0 = Double.ofBits 0x4018000000000000 ∧ lit 7 0 = Double.ofBits 0x401C000000000000 ∧
      lit 9 0 = Double.ofBits 0x4022000000000000 ∧ lit 3 1 = Double.ofBits 0x3FF8000000000000 ∧
      lit 9 2 = Double.ofBits 0x4002000000000000 ∧ lit 3 2 = Double.ofBits 0x3FE8000000000000 ∧
      -lit 3 1 = Double.ofBits 0xBFF8000000000000 ∧ -lit 3 0 = Double.ofBits 0xC008000000000000 := by
  decide!

/-- C5. The function `main` builds `a = Vec3(1,2,3)` and `b = Vec3(4,5,6)`,
computes `c = a + b = Vec3(5,7,9)`, appends the line `(5,7,9)` and a line
terminator to the standard output, and returns `0`; the text of
`Vec3(1,2,3) + Vec3(4,5,6)` is `(5,7,9)`, its integral coordinates rendered
without a decimal point. -/
theorem Vector3d.main_output (cout : OStream) :
    Vector3d.a = ⟨lit 1 0, lit 2 0, lit 3 0⟩ ∧ Vector3d.b = ⟨lit 4 0, lit 5 0, lit 6 0⟩ ∧
      Vector3d.c = ⟨lit 5 0, lit 7 0, lit 9 0⟩ ∧
      Vec3.format (Vec3.add ⟨lit 1 0, lit 2 0, lit 3 0⟩ ⟨lit 4 0, lit 5 0, lit 6 0⟩) = "(5,7,9)" ∧
      Vector3d.main cout = (⟨cout.buf ++ "(5,7,9)\n"⟩, 0) := by
  have htext : "(" ++ decimal Vector3d.c.x ++ "," ++ decimal Vector3d.c.y ++ "," ++
      decimal Vector3d.c.z ++ ")" = "(5,7,9)" := by decide!
  have hmain : Vector3d.main cout =
      (⟨cout.buf ++ ("(" ++ decimal Vector3d.c.x ++ "," ++ decimal Vector3d.c.y ++ "," ++
        decimal Vector3d.c.z ++ ")") ++ "\n"⟩, 0) := by
    simp only [Vector3d.main, OStream.endl, Vec3.shl_buf]
  rw [htext, String.append_assoc] at hmain
  exact ⟨rfl, rfl, by decide!, by decide!, hmain⟩

/-! ## `main` of `eigenMatrix.cpp` -/

/-- The products of lines 51 and 60 do not depend on the initial contents of
the variables nor on the random matrices. -/
theorem EigenMatrix.main_results (o : Accum) (rnd1 : Mat Double 3 3) (rnd2 : Mat Double 2 1)
    (s : EigenMatrix.State) :
    (EigenMatrix.main o rnd1 rnd2 s).Matrix_Result =
        Mat.mul o (Mat.cast binary64 (Mat.commaInit binary32 [4, 5, 6] : Mat Float32 3 1))
          (Mat.transpose (Mat.commaInit binary64 [3, 2, 1] : Mat Double 3 1)) ∧
      (EigenMatrix.main o rnd1 rnd2 s).Matrix_Result_2d =
        Mat.mul o (Mat.cast binary64 (Mat.commaInit binary32 [1, 2, 3, 4, 5, 6] : Mat Float32 2 3))
          (Mat.cast binary64 (Mat.commaInit binary32 [4, 5, 6] : Mat Float32 3 1)) := by
  simp only [EigenMatrix.main, EigenMatrix.solve, EigenMatrix.randoms, EigenMatrix.products,
    EigenMatrix.declare, and_self]

/-- The matrix `matrix_33` and the argument of the solver do not depend on the
initial contents of the variables nor on the random matrices. -/
theorem EigenMatrix.main_solverArg (o : Accum) (rnd1 : Mat Double 3 3) (rnd2 : Mat Double 2 1)
    (s : EigenMatrix.State) :
    (EigenMatrix.main o rnd1 rnd2 s).matrix_33 = Mat.Zero ∧
      (EigenMatrix.main o rnd1 rnd2 s).solverArg =
        Mat.mul o (Mat.transpose (Mat.Zero : Mat Double 3 3)) (Mat.Zero : Mat Double 3 3) := by
  simp only [EigenMatrix.main, EigenMatrix.solve, EigenMatrix.randoms, EigenMatrix.products,
    EigenMatrix.declare, and_self]

/-- The vectors of line 48 and 49 do not depend on the initial contents of the
variables nor on the random matrices. -/
theorem EigenMatrix.main_vectors (o : Accum) (rnd1 : Mat Double 3 3) (rnd2 : Mat Double 2 1)
    (s : EigenMatrix.State) :
    (EigenMatrix.main o rnd1 rnd2 s).matrix_23 = Mat.commaInit binary32 [1, 2, 3, 4, 5, 6] ∧
      (EigenMatrix.main o rnd1 rnd2 s).Vd_3d = Mat.commaInit binary64 [3, 2, 1] ∧
      (EigenMatrix.main o rnd1 rnd2 s).Mf_3d = Mat.commaInit binary32 [4, 5, 6] := by
  simp only [EigenMatrix.main, EigenMatrix.solve, EigenMatrix.randoms, EigenMatrix.products,
    EigenMatrix.declare, and_self]

/-- A product over an inner dimension of `1` is the product of the two
coefficients, in either accumulation order. -/
theorem Mat.mul_outer {r c : Nat} (o : Accum) (a : Mat Double r 1) (b : Mat Double 1 c)
    (i : Fin r) (j : Fin c) : Mat.mul o a b i j = a i 0 * b 0 j := by
  cases o <;> rfl

theorem Mat.mul_zero_zero (o : Accum) :
    Mat.mul o (Mat.transpose (Mat.Zero : Mat Double 3 3)) (Mat.Zero : Mat Double 3 3) =
      (Mat.Zero : Mat Double 3 3) := by
  funext i j
  revert i j
  cases o <;> decide!

theorem Mat.exact_zero : Mat.exact (Mat.Zero : Mat Double 3 3) = 0 := by
  funext i j
  simp [Mat.exact, Mat.Zero, IEEE.zero, IEEE.toRat]


theorem Mat.result_values :
    (∀ i j : Fin 3, ((Mat.commaInit binary64 [12, 8, 4, 15, 10, 5, 18, 12, 6] :
        Mat Double 3 3) i j).toRat =
      some ((([12, 8, 4, 15, 10, 5, 18, 12, 6] : List Int).getD (i.val * 3 + j.val) 0 : Int) : ℚ)) ∧
    (∀ i j : Fin 3, (Mat.commaInit binary64 [12, 8, 4, 15, 10, 5, 18, 12, 6] :
        Mat Double 3 3) i j =
      IEEE.ofInt binary64 (([4, 5, 6] : List Int).getD i.val 0 * ([3, 2, 1] : List Int).getD j.val 0)) ∧
    (∀ (i : Fin 2) (j : Fin 1), ((Mat.commaInit binary64 [32, 77] : Mat Double 2 1) i j).toRat =
      some ((([32, 77] : List Int).getD (i.val * 1 + j.val) 0 : Int) : ℚ)) := by
  decide!

theorem Mat.result_products (o : Accum) :
    Mat.mul o (Mat.cast binary64 (Mat.commaInit binary32 [4, 5, 6] : Mat Float32 3 1))
        (Mat.transpose (Mat.commaInit binary64 [3, 2, 1] : Mat Double 3 1)) =
      (Mat.commaInit binary64 [12, 8, 4, 15, 10, 5, 18, 12, 6] : Mat Double 3 3) ∧
    Mat.mul o (Mat.cast binary64 (Mat.commaInit binary32 [1, 2, 3, 4, 5, 6] : Mat Float32 2 3))
        (Mat.cast binary64 (Mat.commaInit binary32 [4, 5, 6] : Mat Float32 3 1)) =
      (Mat.commaInit binary64 [32, 77] : Mat Double 2 1) := by
  constructor
  · funext i j
    revert i j
    cases o <;> decide!
  · funext i j
    revert i j
    cases o <;> decide!

theorem Mat.result_text :
    (EigenMatrix.printLoop (Mat.commaInit binary64 [12, 8, 4, 15, 10, 5, 18, 12, 6] :
        Mat Double 3 3) ⟨""⟩).buf = "12\t8\t4\t\n\n15\t10\t5\t\n\n18\t12\t6\t\n\n" ∧
    (EigenMatrix.printLoop (Mat.commaInit binary64 [32, 77] : Mat Double 2 1) ⟨""⟩).buf =
      "32\t\n\n77\t\n\n" := by
  decide!

/-- C9. With `matrix_23 = [[1,2,3],[4,5,6]]`, `Mf_3d = (4,5,6)ᵀ` and
`Vd_3d = (3,2,1)ᵀ`, whatever the accumulation order, the initial contents of
the variables and the random matrices: `Matrix_Result` is the outer product
`[[12,8,4],[15,10,5],[18,12,6]]`, its coefficient `(i,j)` being
`Mf_3d[i] * Vd_3d[j]` (as a product of `double` and as a product of integers),
and `Matrix_Result_2d` is `(32, 77)ᵀ`; these values are exact, and the two
printing loops write them as integers. -/
theorem EigenMatrix.products_exact (o : Accum) (rnd1 : Mat Double 3 3) (rnd2 : Mat Double 2 1)
    (s : EigenMatrix.State) :
    (EigenMatrix.main o rnd1 rnd2 s).Matrix_Result =
        Mat.commaInit binary64 [12, 8, 4, 15, 10, 5, 18, 12, 6] ∧
      (∀ i j : Fin 3, (EigenMatrix.main o rnd1 rnd2 s).Matrix_Result i j =
        ((EigenMatrix.main o rnd1 rnd2 s).Mf_3d i 0).cast binary64 *
          (EigenMatrix.main o rnd1 rnd2 s).Vd_3d j 0) ∧
      (∀ i j : Fin 3, (EigenMatrix.main o rnd1 rnd2 s).Matrix_Result i j =
        IEEE.ofInt binary64
          (([4, 5, 6] : List Int).getD i.val 0 * ([3, 2, 1] : List Int).getD j.val 0)) ∧
      (EigenMatrix.main o rnd1 rnd2 s).Matrix_Result_2d = Mat.commaInit binary64 [32, 77] ∧
      Mat.exact (EigenMatrix.main o rnd1 rnd2 s).Matrix_Result =
        !![12, 8, 4; 15, 10, 5; 18, 12, 6] ∧
      Mat.exact (EigenMatrix.main o rnd1 rnd2 s).Matrix_Result_2d = !![32; 77] ∧
      (EigenMatrix.printLoop (EigenMatrix.main o rnd1 rnd2 s).Matrix_Result ⟨""⟩).buf =
        "12\t8\t4\t\n\n15\t10\t5\t\n\n18\t12\t6\t\n\n" ∧
      (EigenMatrix.printLoop (EigenMatrix.main o rnd1 rnd2 s).Matrix_Result_2d ⟨""⟩).buf =
        "32\t\n\n77\t\n\n" := by
  obtain ⟨h1, h2⟩ := EigenMatrix.main_results o rnd1 rnd2 s
  obtain ⟨p1, p2⟩ := Mat.result_products o
  obtain ⟨v1, v2, v3⟩ := Mat.result_values
  obtain ⟨-, w2, w3⟩ := EigenMatrix.main_vectors o rnd1 rnd2 s
  have houter : ∀ i j : Fin 3, (EigenMatrix.main o rnd1 rnd2 s).Matrix_Result i j =
      ((EigenMatrix.main o rnd1 rnd2 s).Mf_3d i 0).cast binary64 *
        (EigenMatrix.main o rnd1 rnd2 s).Vd_3d j 0 := by
    intro i j
    rw [h1, w2, w3, Mat.mul_outer]
    simp only [Mat.cast, Mat.transpose]
  refine ⟨?_, houter, ?_⟩
  · rw [h1, p1]
  rw [h1, h2, p1, p2]
  refine ⟨v2, rfl, ?_, ?_, Mat.result_text.1, Mat.result_text.2⟩
  · funext i j
    simp only [Mat.exact, v1]
    fin_cases i <;> fin_cases j <;> simp
  · funext i j
    simp only [Mat.exact, v3]
    fin_cases i <;> fin_cases j <;> simp

/-- C10. Whatever the accumulation order, the initial contents of the
variables and the random matrices, `matrix_33` is still the zero matrix when
the solver is built, and the argument `matrix_33.transpose() * matrix_33` of
the solver has every coefficient `+0.0`: it is symmetric, its exact value is
the zero matrix, whose spectrum is `0` alone, any eigenvalue `μ` (with an
eigenvector `v ≠ 0`) being `0`. -/
theorem EigenMatrix.solverArg_zero (o : Accum) (rnd1 : Mat Double 3 3) (rnd2 : Mat Double 2 1)
    (s : EigenMatrix.State) :
    (EigenMatrix.main o rnd1 rnd2 s).matrix_33 = Mat.Zero ∧
      (∀ i j : Fin 3, (EigenMatrix.main o rnd1 rnd2 s).solverArg i j = IEEE.zero) ∧
      (∀ i j : Fin 3, (EigenMatrix.main o rnd1 rnd2 s).solverArg i j =
        (EigenMatrix.main o rnd1 rnd2 s).solverArg j i) ∧
      Mat.exact (EigenMatrix.main o rnd1 rnd2 s).solverArg = 0 ∧
      (Mat.exact (EigenMatrix.main o rnd1 rnd2 s).solverArg).IsSymm ∧
      spectrum ℝ (Mat.exact (EigenMatrix.main o rnd1 rnd2 s).solverArg) = {0} ∧
      ∀ (μ : ℝ) (v : Fin 3 → ℝ), v ≠ 0 →
        (Mat.exact (EigenMatrix.main o rnd1 rnd2 s).solverArg).mulVec v = μ • v → μ = 0 := by
  obtain ⟨h1, h2⟩ := EigenMatrix.main_solverArg o rnd1 rnd2 s
  rw [h1, h2, Mat.mul_zero_zero, Mat.exact_zero]
  refine ⟨rfl, fun _ _ => rfl, fun _ _ => rfl, rfl, Matrix.isSymm_zero, spectrum.zero_eq, ?_⟩
  intro μ v hv h
  rw [Matrix.zero_mulVec] at h
  rcases smul_eq_zero.1 h.symm with h0 | h0
  · exact h0
  · exact absurd h0 hv

/-- Witness of `EigenMatrix.solverArg_zero`: the eigenvalue `0` with the
eigenvector `(1, 0, 0)`. -/
theorem EigenMatrix.solverArg_zero_witness :
    ((fun i => if i = 0 then 1 else 0 : Fin 3 → ℝ) ≠ 0) ∧ (0 : ℝ) = 0 :=
  have hv : (fun i => if i = 0 then 1 else 0 : Fin 3 → ℝ) ≠ 0 := fun h => by
    have := congrFun h 0
    simp at this
  ⟨hv, (EigenMatrix.solverArg_zero Accum.sequential Mat.Zero Mat.Zero
    ⟨Mat.commaInit binary32 [], Mat.Zero, Mat.commaInit binary32 [], Mat.Zero, Mat.Zero, Mat.Zero,
      Mat.Zero, Mat.Zero, Mat.Zero⟩).2.2.2.2.2.2 0 _ hv (by
        rw [(EigenMatrix.solverArg_zero Accum.sequential Mat.Zero Mat.Zero _).2.2.2.1]
        simp)⟩


/-- Every 64-bit pattern decodes to an encoding of `double`. -/
theorem Double.ofBits_valid (b : Nat) : (Double.ofBits b).Valid := by
  unfold Double.ofBits
  simp only
  have hfr : b % 2 ^ 52 < 2 ^ 52 := Nat.mod_lt _ (Nat.pow_pos (by decide))
  have he : b / 2 ^ 52 % 2048 < 2048 := Nat.mod_lt _ (by decide)
  split_ifs with h1 h2 h3
  · trivial
  · trivial
  · exact ⟨Nat.lt_trans hfr (by decide), Nat.zero_le _, Or.inl rfl⟩
  · refine ⟨?_, ?_, Or.inr ?_⟩
    · show 2 ^ 52 + b % 2 ^ 52 < 2 ^ 53
      omega
    · show b / 2 ^ 52 % 2048 - 1 ≤ 2045
      omega
    · show 2 ^ (53 - 1) ≤ 2 ^ 52 + b % 2 ^ 52
      omega

/-- Decoding of a pattern given by its sign, exponent and fraction fields. -/
theorem Double.ofBits_fields (sb e fr : Nat) (hs : sb < 2) (he : e < 2048) (hfr : fr < 2 ^ 52) :
    Double.ofBits (sb * 2 ^ 63 + e * 2 ^ 52 + fr) =
      if e = 2047 then (if fr = 0 then IEEE.inf (decide (sb = 1)) else IEEE.nan)
      else if e = 0 then IEEE.fin (decide (sb = 1)) fr 0
      else IEEE.fin (decide (sb = 1)) (2 ^ 52 + fr) (e - 1) := by
  have e1 : (sb * 2 ^ 63 + e * 2 ^ 52 + fr) / 2 ^ 63 % 2 = sb := by omega
  have e2 : (sb * 2 ^ 63 + e * 2 ^ 52 + fr) / 2 ^ 52 % 2048 = e := by omega
  have e3 : (sb * 2 ^ 63 + e * 2 ^ 52 + fr) % 2 ^ 52 = fr := by omega
  unfold Double.ofBits
  simp only [e1, e2, e3]

/-- Every encoding of `double` is the decoding of a 64-bit pattern. -/
theorem Double.ofBits_surjective (x : Double) (hx : x.Valid) :
    ∃ b, b < 2 ^ 64 ∧ Double.ofBits b = x := by
  cases x with
  | nan => exact ⟨0x7FF8000000000000, by decide, by decide⟩
  | inf s =>
    cases s
    · exact ⟨0x7FF0000000000000, by decide, by decide⟩
    · exact ⟨0xFFF0000000000000, by decide, by decide⟩
  | fin s m k =>
    obtain ⟨hm, hk, hn⟩ := hx
    have hm' : m < 2 ^ 53 := hm
    have hk' : k ≤ 2045 := hk
    have hn' : k = 0 ∨ 2 ^ 52 ≤ m := hn
    have hsb : (if s then 1 else 0) < 2 := by cases s <;> decide
    have hdec : decide ((if s then 1 else 0) = 1) = s := by cases s <;> rfl
    by_cases hsub : m < 2 ^ 52
    · have hk0 : k = 0 := by omega
      subst hk0
      refine ⟨(if s then 1 else 0) * 2 ^ 63 + 0 * 2 ^ 52 + m, ?_, ?_⟩
      · cases s <;> simp <;> omega
      · rw [Double.ofBits_fields _ 0 m hsb (by decide) hsub, hdec]
        simp
    · refine ⟨(if s then 1 else 0) * 2 ^ 63 + (k + 1) * 2 ^ 52 + (m - 2 ^ 52), ?_, ?_⟩
      · cases s <;> simp <;> omega
      · rw [Double.ofBits_fields _ (k + 1) (m - 2 ^ 52) hsb (by omega) (by omega), hdec]
        have e4 : 2 ^ 52 + (m - 2 ^ 52) = m := by omega
        have e5 : ¬ (k + 1 = 2047) := by omega
        rw [if_neg e5, if_neg (Nat.succ_ne_zero k), e4, Nat.add_sub_cancel]

end Alps
